import Mathlib

/-!
Verification of the MAFIA maximal-frequent-itemset miner
(`02_assignment/MAFIA/mafia.py` and `mafia_simple.py`).

Items are natural numbers, transactions are finite sets of items, and a
transaction database is the list of its transactions.  The Python code keeps
candidate heads and tails as tuples/lists of items; we mirror that with
`List ℕ`, and mined itemsets (`set(head)` in Python) with `Finset ℕ`.

The bitmap machinery of `TransVerticalBitmaps` (per-item bit vectors, AND,
popcount, with a pure memo cache) denotes plain support counting: the number
of transactions that contain every item of the queried tuple.  `countSupport`
below is that denotation.

Python's `list.sort` is a stable ascending sort; insertion sort with a
non-strict `≤` on the key is also stable, so `List.insertionSort` mirrors the
tail re-sort of `mafia.py` exactly (and, unlike `List.mergeSort`, it is
structurally recursive, so closed runs evaluate inside the kernel).

The recursion of `_mafiaAlgorithm` terminates because every child's tail is a
strict suffix of the (re-sorted) parent tail; we realise it with a fuel
parameter, started at `|universe| + 1`, which the termination invariant
`node.tail.length < fuel` shows is never exhausted.

Besides the list of mined itemsets, the embedded run also returns two ghost
traces used purely for specification: every `(state, candidate)` pair at the
moment the code tries to add a leaf head to `MFIs`, and every constructed
search node together with its recursion depth.
-/

namespace Mafia

abbrev Itemset := Finset ℕ
abbrev DB := List Itemset

/-- Denotation of `TransVerticalBitmaps.countSupport`: the number of
transactions containing every item of the tuple `itemset`. -/
def countSupport (tx : DB) (itemset : List ℕ) : ℕ :=
  (tx.filter fun t => itemset.all fun i => decide (i ∈ t)).length

/-- Support of an itemset given as a `Finset`: the number of transactions
containing it as a subset. -/
def sup (tx : DB) (s : Itemset) : ℕ :=
  (tx.filter fun t => decide (s ⊆ t)).length

/-- The itemset is frequent: its support count reaches `min_support_count`. -/
def freq (tx : DB) (msc : ℤ) (s : Itemset) : Prop :=
  msc ≤ (sup tx s : ℤ)

/-- Maximal frequent itemset: frequent, with no frequent proper superset. -/
def maxFreq (tx : DB) (msc : ℤ) (s : Itemset) : Prop :=
  freq tx msc s ∧ ∀ u : Itemset, s ⊂ u → ¬ freq tx msc u

/-- The union of all transactions: the item universe (as a set). -/
def allItems (tx : DB) : Itemset := tx.foldr (fun t acc => t ∪ acc) ∅

/-- Sort a multiset of naturals ascending.  Insertion sort respects
permutation, so it lifts to the quotient; unlike `Multiset.sort` it reduces
inside the kernel. -/
def msort (m : Multiset ℕ) : List ℕ :=
  Quotient.liftOn m (fun l => l.insertionSort (· ≤ ·)) (fun a b hab =>
    List.eq_of_perm_of_sorted
      (((List.perm_insertionSort _ a).trans hab).trans
        (List.perm_insertionSort _ b).symm)
      (List.sorted_insertionSort _ a) (List.sorted_insertionSort _ b))

/-- The item universe as a sorted list (`self.items = sorted(items)`). -/
def itemsList (tx : DB) : List ℕ := msort (allItems tx).val

/-- A node of the MAFIA candidate itemset tree (`MafiaNode` in `mafia.py`):
committed prefix `head`, candidate extensions `tail`, and the support count
of the head. -/
structure MafiaNode where
  head : List ℕ
  tail : List ℕ
  support_count : ℕ
  deriving DecidableEq

/-- Result of a traversal: the mined itemsets (`MFIs`), plus two ghost
traces — the `(MFIs-before, candidate)` pair of every leaf insertion attempt,
and every constructed node paired with its recursion depth. -/
structure RunResult where
  mfis : List Itemset
  inserts : List (List Itemset × Itemset)
  nodes : List (ℕ × MafiaNode)
  deriving DecidableEq

/-- The superset check used both by HUTMFI pruning (line 138) and before the
leaf append (line 175): `any(all(item in mfi for item in l) for mfi in MFIs)`,
i.e. some already-mined itemset contains every item of `l`. -/
def subsumed (M : List Itemset) (s : Itemset) : Bool :=
  M.any fun mfi => decide (s ⊆ mfi)

/-- The code's insertion step at a leaf (lines 174–176 of `mafia.py`,
lines 140–142 of `mafia_simple.py`): if some existing member is a superset of
the candidate, keep `MFIs` unchanged; otherwise append the candidate. -/
def resultInsert (M : List Itemset) (c : Itemset) : List Itemset :=
  if subsumed M c then M else M ++ [c]

/-- Insertion as the specification words it: reject if an existing member is
a superset; otherwise remove every member that is a proper subset of the
candidate, then add the candidate. -/
def resultInsertSpec (M : List Itemset) (c : Itemset) : List Itemset :=
  if subsumed M c then M else (M.filter fun x => !decide (x ⊂ c)) ++ [c]

/-- Line 142 of `mafia.py`: the `(item, support)` pairs of the node's
children, already restricted to the frequent ones (line 144). -/
def childPairs (tx : DB) (msc : ℤ) (head tail : List ℕ) : List (ℕ × ℕ) :=
  (tail.map fun item => (item, countSupport tx (head ++ [item]))).filter
    fun p => decide (msc ≤ (p.2 : ℤ))

/-- Lines 146–151: the frequent children whose support equals the parent's
support count (parent equivalence) are folded into the head. -/
def pepItems (tx : DB) (msc : ℤ) (head tail : List ℕ) (sc : ℕ) : List ℕ :=
  ((childPairs tx msc head tail).filter fun p => decide (p.2 = sc)).map Prod.fst

/-- Lines 152–157: the remaining frequent children, stably sorted by
ascending support count — the node's trimmed and re-ordered tail. -/
def sortedTail (tx : DB) (msc : ℤ) (head tail : List ℕ) (sc : ℕ) : List (ℕ × ℕ) :=
  ((childPairs tx msc head tail).filter fun p => !decide (p.2 = sc)).insertionSort
    fun a b => a.2 ≤ b.2

/-- The loop of lines 164–172: spawn one child per entry of the re-sorted
tail; child `i` receives the suffix after position `i` as its own tail and
the recorded support count as its `support_count`. -/
def runChildren (go : MafiaNode → List Itemset → ℕ → RunResult) (head2 : List ℕ)
    (depth : ℕ) : List (ℕ × ℕ) → List Itemset → RunResult
  | [], M => ⟨M, [], []⟩
  | (item, sc) :: rest, M =>
    let child : MafiaNode := ⟨head2 ++ [item], rest.map Prod.fst, sc⟩
    let r1 := go child M (depth + 1)
    let r2 := runChildren go head2 depth rest r1.mfis
    ⟨r2.mfis, r1.inserts ++ r2.inserts, (depth + 1, child) :: (r1.nodes ++ r2.nodes)⟩

/-- One invocation of `_mafiaAlgorithm` (`mafia.py`, lines 134–176), with a
fuel parameter for the recursion: HUTMFI pruning, child support counting and
frequency filtering, PEP folding into the head, tail re-sorting, recursion
into the children, and the leaf append. -/
def mafiaGo (tx : DB) (msc : ℤ) : ℕ → MafiaNode → List Itemset → ℕ → RunResult
  | 0 => fun _ M _ => ⟨M, [], []⟩
  | fuel + 1 => fun node M depth =>
    if subsumed M (node.head ++ node.tail).toFinset then ⟨M, [], []⟩
    else
      let sorted := sortedTail tx msc node.head node.tail node.support_count
      let head2 := node.head ++ pepItems tx msc node.head node.tail node.support_count
      if sorted.isEmpty then
        ⟨resultInsert M head2.toFinset, [(M, head2.toFinset)], []⟩
      else runChildren (mafiaGo tx msc fuel) head2 depth sorted M

/-- The full optimized run (`mafiaAlgorithm`, lines 179–204): build the root
node `(head = (), tail = sorted items, support = |transactions|)` and explore
it, starting from an empty `MFIs` list.  The root is recorded at depth 0. -/
def mafiaRun (tx : DB) (msc : ℤ) : RunResult :=
  let root : MafiaNode := ⟨[], itemsList tx, tx.length⟩
  let r := mafiaGo tx msc ((itemsList tx).length + 1) root [] 0
  ⟨r.mfis, r.inserts, (0, root) :: r.nodes⟩

/-- The list of itemsets returned by `mafiaAlgorithm` in `mafia.py`. -/
def mafiaAlgorithm (tx : DB) (msc : ℤ) : List Itemset := (mafiaRun tx msc).mfis

/-- A node of the unoptimized tree (`MafiaNode` in `mafia_simple.py`): no
support count is stored. -/
structure SimpleNode where
  head : List ℕ
  tail : List ℕ
  deriving DecidableEq

/-- Result of an unoptimized traversal, with the ghost insertion trace. -/
structure SimpleRun where
  mfis : List Itemset
  inserts : List (List Itemset × Itemset)
  deriving DecidableEq

/-- The loop of `mafia_simple.py` lines 131–138: every tail item is support
counted; only the frequent ones spawn a recursive call (with the plain
suffix as tail), and `is_leaf` stays true iff none was frequent.  Returns
the traversal outcome paired with `is_leaf`. -/
def runSimpleChildren (go : SimpleNode → List Itemset → SimpleRun) (tx : DB)
    (msc : ℤ) (head : List ℕ) : List ℕ → List Itemset → SimpleRun × Bool
  | [], M => (⟨M, []⟩, true)
  | item :: rest, M =>
    if msc ≤ (countSupport tx (head ++ [item]) : ℤ) then
      let r1 := go ⟨head ++ [item], rest⟩ M
      let r2 := runSimpleChildren go tx msc head rest r1.mfis
      (⟨r2.1.mfis, r1.inserts ++ r2.1.inserts⟩, false)
    else runSimpleChildren go tx msc head rest M

/-- One invocation of `_mafiaAlgorithm` in `mafia_simple.py` (lines
127–142): recurse into the frequent children, then append the head if the
node was a leaf and no mined superset exists. -/
def simpleGo (tx : DB) (msc : ℤ) : ℕ → SimpleNode → List Itemset → SimpleRun
  | 0 => fun _ M => ⟨M, []⟩
  | fuel + 1 => fun node M =>
    let rb := runSimpleChildren (simpleGo tx msc fuel) tx msc node.head node.tail M
    if rb.2 then
      ⟨resultInsert rb.1.mfis node.head.toFinset,
        rb.1.inserts ++ [(rb.1.mfis, node.head.toFinset)]⟩
    else rb.1

/-- The full unoptimized run (`mafiaAlgorithm` of `mafia_simple.py`, lines
145–170). -/
def simpleRun (tx : DB) (msc : ℤ) : SimpleRun :=
  simpleGo tx msc ((itemsList tx).length + 1) ⟨[], itemsList tx⟩ []

/-- The list of itemsets returned by `mafiaAlgorithm` in `mafia_simple.py`. -/
def mafiaSimpleAlgorithm (tx : DB) (msc : ℤ) : List Itemset := (simpleRun tx msc).mfis

/-! ### Basic facts about support counting -/

lemma countSupport_nil (tx : DB) : countSupport tx [] = tx.length := by
  simp [countSupport]

lemma countSupport_eq_sup (tx : DB) (l : List ℕ) :
    countSupport tx l = sup tx l.toFinset := by
  unfold countSupport sup
  congr 1
  refine List.filter_congr fun t _ => ?_
  rw [Bool.eq_iff_iff]
  simp [List.all_eq_true, Finset.subset_iff]

lemma length_filter_mono {α : Type} (l : List α) (p q : α → Bool)
    (h : ∀ x, q x = true → p x = true) :
    (l.filter q).length ≤ (l.filter p).length := by
  induction l with
  | nil => simp
  | cons a l ih =>
    simp only [List.filter_cons]
    by_cases hq : q a = true
    · rw [if_pos hq, if_pos (h a hq)]
      simpa using ih
    · rw [if_neg hq]
      by_cases hp : p a = true
      · rw [if_pos hp]
        exact ih.trans (by simp)
      · rw [if_neg hp]
        exact ih

/-- If a pointwise-stronger filter keeps as many elements, the two predicates
agree on the list. -/
lemma filter_eq_on_of_length_eq {α : Type} (p q : α → Bool)
    (h : ∀ x, q x = true → p x = true) :
    ∀ l : List α, (l.filter q).length = (l.filter p).length →
      ∀ x ∈ l, p x = true → q x = true := by
  intro l
  induction l with
  | nil => simp
  | cons a l ih =>
    intro hlen x hx hpx
    simp only [List.filter_cons] at hlen
    by_cases hq : q a = true
    · rw [if_pos hq, if_pos (h a hq)] at hlen
      simp only [List.length_cons] at hlen
      have hlen' : (l.filter q).length = (l.filter p).length := by omega
      rcases List.mem_cons.mp hx with rfl | hx
      · exact hq
      · exact ih hlen' x hx hpx
    · rw [if_neg hq] at hlen
      by_cases hp : p a = true
      · rw [if_pos hp] at hlen
        have hmono := length_filter_mono l p q h
        simp only [List.length_cons] at hlen
        omega
      · rw [if_neg hp] at hlen
        rcases List.mem_cons.mp hx with rfl | hx
        · exact absurd hpx hp
        · exact ih hlen x hx hpx

lemma sup_anti (tx : DB) {s u : Itemset} (h : s ⊆ u) : sup tx u ≤ sup tx s := by
  refine length_filter_mono tx _ _ fun t ht => ?_
  simp only [decide_eq_true_eq] at ht ⊢
  exact h.trans ht

lemma sup_le_length (tx : DB) (s : Itemset) : sup tx s ≤ tx.length :=
  List.length_filter_le _ tx

lemma freq_anti (tx : DB) (msc : ℤ) {s u : Itemset} (h : s ⊆ u)
    (hu : freq tx msc u) : freq tx msc s :=
  le_trans hu (by exact_mod_cast sup_anti tx h)

lemma exists_transaction_of_sup_pos (tx : DB) {s : Itemset} (h : 0 < sup tx s) :
    ∃ t ∈ tx, s ⊆ t := by
  unfold sup at h
  rcases List.exists_mem_of_length_pos h with ⟨t, ht⟩
  rcases List.mem_filter.mp ht with ⟨htx, hst⟩
  exact ⟨t, htx, of_decide_eq_true hst⟩

lemma subset_allItems {tx : DB} {t : Itemset} (h : t ∈ tx) : t ⊆ allItems tx := by
  induction tx with
  | nil => cases h
  | cons a l ih =>
    rcases List.mem_cons.mp h with rfl | h
    · exact Finset.subset_union_left
    · exact (ih h).trans Finset.subset_union_right

lemma freq_subset_allItems {tx : DB} {msc : ℤ} {s : Itemset} (hmsc : 0 < msc)
    (h : freq tx msc s) : s ⊆ allItems tx := by
  have hpos : 0 < sup tx s := by
    have := h
    unfold freq at this
    omega
  rcases exists_transaction_of_sup_pos tx hpos with ⟨t, htx, hst⟩
  exact hst.trans (subset_allItems htx)

/-! ### The sorted item universe -/

lemma mem_msort {m : Multiset ℕ} {x : ℕ} : x ∈ msort m ↔ x ∈ m := by
  induction m using Quotient.inductionOn with
  | h l => exact (List.perm_insertionSort (· ≤ ·) l).mem_iff

lemma nodup_msort {m : Multiset ℕ} (h : m.Nodup) : (msort m).Nodup := by
  induction m using Quotient.inductionOn with
  | h l => exact (List.perm_insertionSort (· ≤ ·) l).nodup_iff.mpr h

lemma itemsList_nodup (tx : DB) : (itemsList tx).Nodup :=
  nodup_msort (allItems tx).nodup

lemma mem_itemsList {tx : DB} {x : ℕ} : x ∈ itemsList tx ↔ x ∈ allItems tx :=
  mem_msort

/-! ### Children, PEP items and the re-sorted tail -/

lemma mem_childPairs {tx : DB} {msc : ℤ} {head tail : List ℕ} {p : ℕ × ℕ} :
    p ∈ childPairs tx msc head tail ↔
      p.1 ∈ tail ∧ p.2 = countSupport tx (head ++ [p.1]) ∧ msc ≤ (p.2 : ℤ) := by
  unfold childPairs
  rw [List.mem_filter, List.mem_map]
  constructor
  · rintro ⟨⟨a, ha, rfl⟩, hd⟩
    exact ⟨ha, rfl, of_decide_eq_true hd⟩
  · rintro ⟨h1, h2, h3⟩
    exact ⟨⟨p.1, h1, by rw [← h2]⟩, decide_eq_true h3⟩

lemma childPairs_fst_sublist (tx : DB) (msc : ℤ) (head tail : List ℕ) :
    ((childPairs tx msc head tail).map Prod.fst).Sublist tail := by
  unfold childPairs
  induction tail with
  | nil => simp
  | cons a l ih =>
    simp only [List.map_cons, List.filter_cons]
    by_cases h : decide (msc ≤ ((countSupport tx (head ++ [a]) : ℕ) : ℤ)) = true
    · simp only [h, if_true]
      exact ih.cons₂ a
    · rw [if_neg h]
      exact ih.cons a

lemma pepItems_sublist (tx : DB) (msc : ℤ) (head tail : List ℕ) (sc : ℕ) :
    (pepItems tx msc head tail sc).Sublist tail := by
  unfold pepItems
  exact ((List.filter_sublist _).map Prod.fst).trans
    (childPairs_fst_sublist tx msc head tail)

lemma mem_pepItems {tx : DB} {msc : ℤ} {head tail : List ℕ} {sc : ℕ} {x : ℕ} :
    x ∈ pepItems tx msc head tail sc ↔
      x ∈ tail ∧ countSupport tx (head ++ [x]) = sc ∧ msc ≤ (sc : ℤ) := by
  unfold pepItems
  rw [List.mem_map]
  constructor
  · rintro ⟨p, hp, rfl⟩
    rcases List.mem_filter.mp hp with ⟨hp, hsc⟩
    rcases mem_childPairs.mp hp with ⟨h1, h2, h3⟩
    have hsc' : p.2 = sc := of_decide_eq_true hsc
    exact ⟨h1, by rw [← h2, hsc'], by rw [← hsc']; exact h3⟩
  · rintro ⟨h1, h2, h3⟩
    refine ⟨(x, countSupport tx (head ++ [x])), List.mem_filter.mpr ⟨?_, ?_⟩, rfl⟩
    · exact mem_childPairs.mpr ⟨h1, rfl, by rw [h2]; exact h3⟩
    · simpa using h2

lemma sortedTail_perm (tx : DB) (msc : ℤ) (head tail : List ℕ) (sc : ℕ) :
    (sortedTail tx msc head tail sc).Perm
      ((childPairs tx msc head tail).filter fun p => !decide (p.2 = sc)) :=
  List.perm_insertionSort _ _

lemma mem_sortedTail {tx : DB} {msc : ℤ} {head tail : List ℕ} {sc : ℕ} {p : ℕ × ℕ} :
    p ∈ sortedTail tx msc head tail sc ↔
      p ∈ childPairs tx msc head tail ∧ ¬ p.2 = sc := by
  rw [(sortedTail_perm tx msc head tail sc).mem_iff, List.mem_filter]
  simp

lemma sortedTail_length_le (tx : DB) (msc : ℤ) (head tail : List ℕ) (sc : ℕ) :
    (sortedTail tx msc head tail sc).length ≤ tail.length := by
  rw [(sortedTail_perm tx msc head tail sc).length_eq]
  calc ((childPairs tx msc head tail).filter fun p => !decide (p.2 = sc)).length
      ≤ (childPairs tx msc head tail).length := List.length_filter_le _ _
    _ = ((childPairs tx msc head tail).map Prod.fst).length := by rw [List.length_map]
    _ ≤ tail.length := (childPairs_fst_sublist tx msc head tail).length_le

lemma sortedTail_fst_nodup {tx : DB} {msc : ℤ} {head tail : List ℕ} {sc : ℕ}
    (h : tail.Nodup) : ((sortedTail tx msc head tail sc).map Prod.fst).Nodup := by
  have hperm := (sortedTail_perm tx msc head tail sc).map Prod.fst
  rw [hperm.nodup_iff]
  exact ((List.filter_sublist _).map Prod.fst).nodup
    ((childPairs_fst_sublist tx msc head tail).nodup h)

/-! ### Covering and the subsumption check -/

/-- Some already-mined itemset contains `s`. -/
def covers (M : List Itemset) (s : Itemset) : Prop := ∃ z ∈ M, s ⊆ z

lemma covers_mono {M L : List Itemset} {s : Itemset} (h : covers M s) :
    covers (M ++ L) s := by
  rcases h with ⟨z, hz, hs⟩
  exact ⟨z, List.mem_append_left _ hz, hs⟩

lemma covers_ext {M M' : List Itemset} {s : Itemset} (hM : ∃ L, M' = M ++ L)
    (h : covers M s) : covers M' s := by
  rcases hM with ⟨L, rfl⟩
  exact covers_mono h

lemma subsumed_iff {M : List Itemset} {s : Itemset} :
    subsumed M s = true ↔ ∃ z ∈ M, s ⊆ z := by
  unfold subsumed
  simp [List.any_eq_true]

/-! ### Parent-equivalence folding preserves support -/

lemma pep_item_mem {tx : DB} {msc : ℤ} {head tail : List ℕ} {sc : ℕ}
    (hsc : countSupport tx head = sc) {p : ℕ}
    (hp : p ∈ pepItems tx msc head tail sc) :
    ∀ t ∈ tx, head.toFinset ⊆ t → p ∈ t := by
  rcases mem_pepItems.mp hp with ⟨_, hps, _⟩
  intro t ht hhead
  have himp : ∀ u : Itemset, ((head ++ [p]).all fun i => decide (i ∈ u)) = true →
      (head.all fun i => decide (i ∈ u)) = true := by
    intro u hu
    rw [List.all_append] at hu
    exact (Bool.and_eq_true_iff.mp hu).1
  have hlen : (tx.filter fun u => (head ++ [p]).all fun i => decide (i ∈ u)).length
      = (tx.filter fun u => head.all fun i => decide (i ∈ u)).length := by
    show countSupport tx (head ++ [p]) = countSupport tx head
    rw [hps, hsc]
  have hall : (head.all fun i => decide (i ∈ t)) = true := by
    rw [List.all_eq_true]
    intro i hi
    exact decide_eq_true (hhead (List.mem_toFinset.mpr hi))
  have := filter_eq_on_of_length_eq _ _ himp tx hlen t ht hall
  rw [List.all_append, Bool.and_eq_true_iff] at this
  have hp' := this.2
  simp only [List.all_cons, List.all_nil, Bool.and_true, decide_eq_true_eq] at hp'
  exact hp'

lemma pep_union_filter {tx : DB} {msc : ℤ} {head tail : List ℕ} {sc : ℕ}
    (hsc : countSupport tx head = sc) (S : Itemset) (hS : head.toFinset ⊆ S) :
    (tx.filter fun t => decide (S ∪ (pepItems tx msc head tail sc).toFinset ⊆ t))
      = tx.filter fun t => decide (S ⊆ t) := by
  refine List.filter_congr fun t ht => ?_
  rw [Bool.eq_iff_iff]
  simp only [decide_eq_true_eq]
  constructor
  · exact fun h => Finset.subset_union_left.trans h
  · intro h
    rw [Finset.union_subset_iff]
    refine ⟨h, fun p hp => ?_⟩
    exact pep_item_mem hsc (List.mem_toFinset.mp hp) t ht (hS.trans h)

lemma sup_union_pep {tx : DB} {msc : ℤ} {head tail : List ℕ} {sc : ℕ}
    (hsc : countSupport tx head = sc) (S : Itemset) (hS : head.toFinset ⊆ S) :
    sup tx (S ∪ (pepItems tx msc head tail sc).toFinset) = sup tx S := by
  unfold sup
  rw [pep_union_filter hsc S hS]

lemma freq_union_pep {tx : DB} {msc : ℤ} {head tail : List ℕ} {sc : ℕ}
    (hsc : countSupport tx head = sc) (S : Itemset) (hS : head.toFinset ⊆ S) :
    freq tx msc (S ∪ (pepItems tx msc head tail sc).toFinset) ↔ freq tx msc S := by
  unfold freq
  rw [sup_union_pep hsc S hS]

lemma countSupport_head2 {tx : DB} {msc : ℤ} {head tail : List ℕ} {sc : ℕ}
    (hsc : countSupport tx head = sc) :
    countSupport tx (head ++ pepItems tx msc head tail sc) = sc := by
  rw [countSupport_eq_sup, List.toFinset_append,
    sup_union_pep hsc head.toFinset (subset_refl _), ← countSupport_eq_sup]
  exact hsc

lemma countSupport_head2_child {tx : DB} {msc : ℤ} {head tail : List ℕ} {sc : ℕ}
    (hsc : countSupport tx head = sc) (a : ℕ) :
    countSupport tx ((head ++ pepItems tx msc head tail sc) ++ [a])
      = countSupport tx (head ++ [a]) := by
  rw [countSupport_eq_sup, countSupport_eq_sup]
  have h1 : ((head ++ pepItems tx msc head tail sc) ++ [a]).toFinset
      = (head.toFinset ∪ {a}) ∪ (pepItems tx msc head tail sc).toFinset := by
    ext x
    simp [List.toFinset_append, or_comm, or_assoc, or_left_comm]
  have h2 : (head ++ [a]).toFinset = head.toFinset ∪ {a} := by
    simp [List.toFinset_append]
  rw [h1, h2, sup_union_pep hsc _ Finset.subset_union_left]

/-! ### The search invariant of the optimized traversal -/

/-- Structural well-formedness of a search node: duplicate-free head and
tail, and disjointness of the two (the spec's `head ∩ tail = ∅`). -/
def NodeWF (n : MafiaNode) : Prop :=
  n.head.Nodup ∧ n.tail.Nodup ∧ ∀ x ∈ n.tail, x ∉ n.head

/-- Semantic precondition of a call of `_mafiaAlgorithm` on `node` with the
current mined list `M`: the stored support count is the head's support and is
at least the threshold; every frequent extension of the head that leaves the
node's scope `head ∪ tail` is already covered; and every mined member is a
maximal frequent itemset. -/
structure NodeInv (tx : DB) (msc : ℤ) (node : MafiaNode) (M : List Itemset) :
    Prop where
  wf : NodeWF node
  supportEq : countSupport tx node.head = node.support_count
  scFreq : msc ≤ (node.support_count : ℤ)
  outer : ∀ S : Itemset, freq tx msc S → node.head.toFinset ⊆ S →
    ¬ S ⊆ node.head.toFinset ∪ node.tail.toFinset → covers M S
  members : ∀ z ∈ M, maxFreq tx msc z

/-- Postcondition of a call of `_mafiaAlgorithm`: the mined list only grows,
every member is a maximal frequent itemset, every frequent itemset inside
the node's scope ends up covered, and at every recorded insertion attempt
the current members were maximal frequent and the candidate frequent. -/
structure GoodRun (tx : DB) (msc : ℤ) (node : MafiaNode) (M : List Itemset)
    (r : RunResult) : Prop where
  ext : ∃ L, r.mfis = M ++ L
  members : ∀ z ∈ r.mfis, maxFreq tx msc z
  cover : ∀ S : Itemset, freq tx msc S → node.head.toFinset ⊆ S →
    S ⊆ node.head.toFinset ∪ node.tail.toFinset → covers r.mfis S
  events : ∀ e ∈ r.inserts, (∀ z ∈ e.1, maxFreq tx msc z) ∧ freq tx msc e.2

lemma toFinset_append_single (head : List ℕ) (a : ℕ) :
    (head ++ [a]).toFinset = head.toFinset ∪ {a} := by
  simp [List.toFinset_append]

/-- Any frequent itemset inside a node's scope lies inside the folded head
together with the re-sorted tail: each of its tail items is a frequent
child, hence either a PEP item or an entry of the sorted tail. -/
lemma scope_subset_split {tx : DB} {msc : ℤ} {node : MafiaNode}
    {S : Itemset} (hfreq : freq tx msc S) (hhead : node.head.toFinset ⊆ S)
    (hscope : S ⊆ node.head.toFinset ∪ node.tail.toFinset) :
    S ⊆ (node.head ++ pepItems tx msc node.head node.tail node.support_count).toFinset
      ∪ ((sortedTail tx msc node.head node.tail node.support_count).map
          Prod.fst).toFinset := by
  intro x hx
  rcases Finset.mem_union.mp (hscope hx) with hxh | hxt
  · exact Finset.mem_union_left _
      (by rw [List.toFinset_append]; exact Finset.mem_union_left _ hxh)
  · have hxtail : x ∈ node.tail := List.mem_toFinset.mp hxt
    have hsub : node.head.toFinset ∪ {x} ⊆ S :=
      Finset.union_subset hhead (by simp [hx])
    have hfr : msc ≤ ((countSupport tx (node.head ++ [x]) : ℕ) : ℤ) := by
      rw [countSupport_eq_sup, toFinset_append_single]
      calc msc ≤ (sup tx S : ℤ) := hfreq
        _ ≤ _ := by exact_mod_cast sup_anti tx hsub
    by_cases hsc : countSupport tx (node.head ++ [x]) = node.support_count
    · apply Finset.mem_union_left
      rw [List.toFinset_append]
      apply Finset.mem_union_right
      rw [List.mem_toFinset]
      exact mem_pepItems.mpr ⟨hxtail, hsc, by rw [← hsc]; exact hfr⟩
    · apply Finset.mem_union_right
      rw [List.mem_toFinset, List.mem_map]
      exact ⟨(x, countSupport tx (node.head ++ [x])),
        mem_sortedTail.mpr ⟨mem_childPairs.mpr ⟨hxtail, rfl, hfr⟩, hsc⟩, rfl⟩

/-- Main loop lemma: processing a suffix of the re-sorted tail preserves the
invariant and afterwards covers every frequent itemset that strictly extends
the folded head within the scope. -/
lemma runChildren_good (tx : DB) (msc : ℤ) (fuel : ℕ)
    (ihgo : ∀ (node : MafiaNode) (M : List Itemset) (depth : ℕ),
      node.tail.length < fuel → NodeInv tx msc node M →
      GoodRun tx msc node M (mafiaGo tx msc fuel node M depth))
    (head2 : List ℕ) (headset scope : Itemset) (depth : ℕ)
    (hh : headset ⊆ head2.toFinset) (hn2 : head2.Nodup) :
    ∀ (pairs : List (ℕ × ℕ)) (M : List Itemset),
      pairs.length ≤ fuel →
      (pairs.map Prod.fst).Nodup →
      (∀ p ∈ pairs, p.1 ∉ head2) →
      (∀ p ∈ pairs, sup tx (head2.toFinset ∪ {p.1}) = p.2 ∧ msc ≤ (p.2 : ℤ)) →
      (∀ z ∈ M, maxFreq tx msc z) →
      (∀ S : Itemset, freq tx msc S → headset ⊆ S → ¬ S ⊆ scope → covers M S) →
      (∀ S : Itemset, freq tx msc S → head2.toFinset ⊆ S → S ⊆ scope →
        ¬ S ⊆ head2.toFinset ∪ (pairs.map Prod.fst).toFinset → covers M S) →
      (∃ L, (runChildren (mafiaGo tx msc fuel) head2 depth pairs M).mfis = M ++ L) ∧
      (∀ z ∈ (runChildren (mafiaGo tx msc fuel) head2 depth pairs M).mfis,
        maxFreq tx msc z) ∧
      (∀ S : Itemset, freq tx msc S → head2.toFinset ⊆ S → S ⊆ scope →
        ¬ S ⊆ head2.toFinset →
        covers (runChildren (mafiaGo tx msc fuel) head2 depth pairs M).mfis S) ∧
      (∀ p0 ∈ pairs.head?,
        covers (runChildren (mafiaGo tx msc fuel) head2 depth pairs M).mfis
          (head2.toFinset ∪ {p0.1})) ∧
      (∀ e ∈ (runChildren (mafiaGo tx msc fuel) head2 depth pairs M).inserts,
        (∀ z ∈ e.1, maxFreq tx msc z) ∧ freq tx msc e.2) := by
  intro pairs
  induction pairs with
  | nil =>
    intro M _ _ _ _ hM houter hinv
    refine ⟨⟨[], by simp [runChildren]⟩, ?_, ?_, ?_, ?_⟩
    · simpa [runChildren] using hM
    · intro S h1 h2 h3 h4
      simp only [runChildren]
      exact hinv S h1 h2 h3 (by simpa using h4)
    · intro p0 hp0
      simp at hp0
    · intro e he
      simp [runChildren] at he
  | cons pr rest ih =>
    rcases pr with ⟨a, b⟩
    intro M hfuel hnodup hnotin hpairs hM houter hinv
    have hmap : ((a, b) :: rest).map Prod.fst = a :: rest.map Prod.fst := rfl
    rw [hmap] at hnodup
    have hanotin : a ∉ head2 := hnotin (a, b) (List.mem_cons_self _ _)
    have hrestfst_nodup : (rest.map Prod.fst).Nodup := hnodup.of_cons
    have hanotinrest : a ∉ rest.map Prod.fst := (List.nodup_cons.mp hnodup).1
    -- the child node spawned for the first entry
    set child : MafiaNode := ⟨head2 ++ [a], rest.map Prod.fst, b⟩ with hchild
    have hchildhead : child.head.toFinset = head2.toFinset ∪ {a} :=
      toFinset_append_single head2 a
    have hseteq : head2.toFinset ∪ (insert a (rest.map Prod.fst).toFinset)
        = (head2.toFinset ∪ {a}) ∪ (rest.map Prod.fst).toFinset := by
      ext x
      simp [or_comm, or_assoc, or_left_comm]
    have hinvchild : NodeInv tx msc child M := by
      refine ⟨⟨?_, ?_, ?_⟩, ?_, ?_, ?_, hM⟩
      · simp only [hchild]
        rw [List.nodup_append]
        exact ⟨hn2, by simp, by simpa using hanotin⟩
      · exact hrestfst_nodup
      · intro x hx
        simp only [hchild, List.mem_append, List.mem_singleton]
        rintro (hxh | rfl)
        · rcases List.mem_map.mp hx with ⟨p, hp, rfl⟩
          exact hnotin p (List.mem_cons_of_mem _ hp) hxh
        · exact hanotinrest hx
      · show countSupport tx (head2 ++ [a]) = b
        rw [countSupport_eq_sup, toFinset_append_single]
        exact (hpairs (a, b) (List.mem_cons_self _ _)).1
      · exact (hpairs (a, b) (List.mem_cons_self _ _)).2
      · intro S h1 h2 h3
        rw [hchildhead] at h2
        by_cases hS : S ⊆ scope
        · refine hinv S h1 (Finset.subset_union_left.trans h2) hS ?_
          rw [hmap, List.toFinset_cons, hseteq]
          simpa [hchildhead] using h3
        · exact houter S h1 (hh.trans (Finset.subset_union_left.trans h2)) hS
    have hfuelchild : child.tail.length < fuel := by
      have : rest.length < ((a, b) :: rest).length := by simp
      have hlen : child.tail.length = rest.length := by
        simp [hchild]
      omega
    have g1 := ihgo child M (depth + 1) hfuelchild hinvchild
    set r1 := mafiaGo tx msc fuel child M (depth + 1) with hr1
    -- maintained inner invariant for the remaining siblings
    have hinvrest : ∀ S : Itemset, freq tx msc S → head2.toFinset ⊆ S →
        S ⊆ scope → ¬ S ⊆ head2.toFinset ∪ (rest.map Prod.fst).toFinset →
        covers r1.mfis S := by
      intro S h1 h2 h3 h4
      by_cases hPS : S ⊆ head2.toFinset ∪ (a :: rest.map Prod.fst).toFinset
      · have haS : a ∈ S := by
          by_contra haS
          refine h4 fun x hx => ?_
          have := hPS hx
          rw [List.toFinset_cons] at this
          rcases Finset.mem_union.mp this with hxh | hxt
          · exact Finset.mem_union_left _ hxh
          · rcases Finset.mem_insert.mp hxt with rfl | hxt
            · exact absurd hx haS
            · exact Finset.mem_union_right _ hxt
        refine covers_ext ⟨[], by simp⟩ (g1.cover S h1 ?_ ?_)
        · rw [hchildhead]
          exact Finset.union_subset h2 (by simp [haS])
        · show S ⊆ child.head.toFinset ∪ child.tail.toFinset
          rw [hchildhead]
          intro x hx
          have := hPS hx
          rw [List.toFinset_cons] at this
          rw [← hseteq]
          simpa using this
      · refine covers_ext g1.ext (hinv S h1 h2 h3 ?_)
        rw [hmap, List.toFinset_cons]
        rw [List.toFinset_cons] at hPS
        exact hPS
    -- process the remaining siblings from the grown list
    have hfuelrest : rest.length ≤ fuel := by
      simp only [List.length_cons] at hfuel
      omega
    obtain ⟨hext2, hmem2, hcov2, hfirst2, hev2⟩ := ih r1.mfis hfuelrest
      hrestfst_nodup
      (fun p hp => hnotin p (List.mem_cons_of_mem _ hp))
      (fun p hp => hpairs p (List.mem_cons_of_mem _ hp))
      g1.members
      (fun S h1 h2 h3 => covers_ext g1.ext (houter S h1 h2 h3))
      hinvrest
    set r2 := runChildren (mafiaGo tx msc fuel) head2 depth rest r1.mfis with hr2
    have hrc : runChildren (mafiaGo tx msc fuel) head2 depth ((a, b) :: rest) M
        = ⟨r2.mfis, r1.inserts ++ r2.inserts,
            (depth + 1, child) :: (r1.nodes ++ r2.nodes)⟩ := rfl
    rw [hrc]
    refine ⟨?_, ?_, ?_, ?_, ?_⟩
    · rcases g1.ext with ⟨L1, hL1⟩
      rcases hext2 with ⟨L2, hL2⟩
      exact ⟨L1 ++ L2, by simp only [hL2, hL1, List.append_assoc]⟩
    · exact hmem2
    · exact hcov2
    · intro p0 hp0
      have hp0' : (a, b) = p0 := by simpa using hp0
      subst hp0'
      refine covers_ext hext2 (g1.cover (head2.toFinset ∪ {a}) ?_ ?_ ?_)
      · show freq tx msc _
        unfold freq
        rw [(hpairs (a, b) (List.mem_cons_self _ _)).1]
        exact (hpairs (a, b) (List.mem_cons_self _ _)).2
      · rw [hchildhead]
      · rw [hchildhead]
        exact Finset.subset_union_left
    · intro e he
      rcases List.mem_append.mp he with he | he
      · exact g1.events e he
      · exact hev2 e he

/-! ### Unfolding equations for one step of the traversal -/

lemma mafiaGo_succ_prune {tx : DB} {msc : ℤ} {fuel : ℕ} {node : MafiaNode}
    {M : List Itemset} {depth : ℕ}
    (h : subsumed M (node.head ++ node.tail).toFinset = true) :
    mafiaGo tx msc (fuel + 1) node M depth = ⟨M, [], []⟩ := by
  simp only [mafiaGo, h]
  rfl

lemma mafiaGo_succ_leaf {tx : DB} {msc : ℤ} {fuel : ℕ} {node : MafiaNode}
    {M : List Itemset} {depth : ℕ}
    (h : subsumed M (node.head ++ node.tail).toFinset = false)
    (hleaf : (sortedTail tx msc node.head node.tail node.support_count).isEmpty
      = true) :
    mafiaGo tx msc (fuel + 1) node M depth
      = ⟨resultInsert M
            (node.head ++ pepItems tx msc node.head node.tail
              node.support_count).toFinset,
          [(M, (node.head ++ pepItems tx msc node.head node.tail
              node.support_count).toFinset)], []⟩ := by
  simp only [mafiaGo, h, hleaf]
  rfl

lemma mafiaGo_succ_rec {tx : DB} {msc : ℤ} {fuel : ℕ} {node : MafiaNode}
    {M : List Itemset} {depth : ℕ}
    (h : subsumed M (node.head ++ node.tail).toFinset = false)
    (hleaf : (sortedTail tx msc node.head node.tail node.support_count).isEmpty
      = false) :
    mafiaGo tx msc (fuel + 1) node M depth
      = runChildren (mafiaGo tx msc fuel)
          (node.head ++ pepItems tx msc node.head node.tail node.support_count)
          depth (sortedTail tx msc node.head node.tail node.support_count) M := by
  simp only [mafiaGo, h, hleaf]
  rfl

/-! ### The main induction for the optimized traversal -/

lemma mafiaGo_good (tx : DB) (msc : ℤ) :
    ∀ (fuel : ℕ) (node : MafiaNode) (M : List Itemset) (depth : ℕ),
      node.tail.length < fuel → NodeInv tx msc node M →
      GoodRun tx msc node M (mafiaGo tx msc fuel node M depth) := by
  intro fuel
  induction fuel with
  | zero =>
    intro node M depth h
    exact absurd h (Nat.not_lt_zero _)
  | succ fuel ih =>
    intro node M depth hlen hinv
    have hheadH2 : node.head.toFinset ⊆
        (node.head ++ pepItems tx msc node.head node.tail
          node.support_count).toFinset := by
      rw [List.toFinset_append]
      exact Finset.subset_union_left
    have hpepsub : (pepItems tx msc node.head node.tail
        node.support_count).toFinset ⊆ node.tail.toFinset := by
      intro x hx
      rw [List.mem_toFinset] at hx ⊢
      exact (pepItems_sublist tx msc node.head node.tail node.support_count).mem hx
    have hcs2 : countSupport tx (node.head ++ pepItems tx msc node.head
        node.tail node.support_count) = node.support_count :=
      countSupport_head2 hinv.supportEq
    have hfreqH2 : freq tx msc (node.head ++ pepItems tx msc node.head
        node.tail node.support_count).toFinset := by
      unfold freq
      rw [← countSupport_eq_sup, hcs2]
      exact hinv.scFreq
    cases hsub : subsumed M (node.head ++ node.tail).toFinset with
    | true =>
      rw [mafiaGo_succ_prune hsub]
      rcases subsumed_iff.mp hsub with ⟨z, hz, hzsub⟩
      refine ⟨⟨[], by simp⟩, hinv.members, ?_, by simp⟩
      intro S _ _ h3
      refine ⟨z, hz, h3.trans ?_⟩
      rw [← List.toFinset_append]
      exact hzsub
    | false =>
      -- every frequent itemset in scope fits in the folded head plus the
      -- re-sorted tail
      have hsplit : ∀ S : Itemset, freq tx msc S → node.head.toFinset ⊆ S →
          S ⊆ node.head.toFinset ∪ node.tail.toFinset →
          S ⊆ (node.head ++ pepItems tx msc node.head node.tail
              node.support_count).toFinset
            ∪ ((sortedTail tx msc node.head node.tail
              node.support_count).map Prod.fst).toFinset :=
        fun S h1 h2 h3 => scope_subset_split h1 h2 h3
      cases hleaf : (sortedTail tx msc node.head node.tail
          node.support_count).isEmpty with
      | true =>
        have hsortednil : sortedTail tx msc node.head node.tail
            node.support_count = [] := List.isEmpty_iff.mp hleaf
        have hS2 : ∀ S : Itemset, freq tx msc S → node.head.toFinset ⊆ S →
            S ⊆ node.head.toFinset ∪ node.tail.toFinset →
            S ⊆ (node.head ++ pepItems tx msc node.head node.tail
              node.support_count).toFinset := by
          intro S h1 h2 h3
          have := hsplit S h1 h2 h3
          rw [hsortednil] at this
          simpa using this
        rw [mafiaGo_succ_leaf hsub hleaf]
        cases hins : subsumed M (node.head ++ pepItems tx msc node.head
            node.tail node.support_count).toFinset with
        | true =>
          rcases subsumed_iff.mp hins with ⟨z, hz, hzsub⟩
          rw [resultInsert, hins]
          refine ⟨⟨[], by simp⟩, hinv.members, ?_, ?_⟩
          · intro S h1 h2 h3
            exact ⟨z, hz, (hS2 S h1 h2 h3).trans hzsub⟩
          · intro e he
            rw [List.mem_singleton] at he
            subst he
            exact ⟨hinv.members, hfreqH2⟩
        | false =>
          have hmax : maxFreq tx msc (node.head ++ pepItems tx msc node.head
              node.tail node.support_count).toFinset := by
            refine ⟨hfreqH2, ?_⟩
            intro Y hY hfreqY
            have hheadY : node.head.toFinset ⊆ Y := hheadH2.trans hY.subset
            by_cases hscope : Y ⊆ node.head.toFinset ∪ node.tail.toFinset
            · exact hY.not_subset (hS2 Y hfreqY hheadY hscope)
            · rcases hinv.outer Y hfreqY hheadY hscope with ⟨z, hz, hzY⟩
              have : subsumed M (node.head ++ pepItems tx msc node.head
                  node.tail node.support_count).toFinset = true :=
                subsumed_iff.mpr ⟨z, hz, hY.subset.trans hzY⟩
              rw [hins] at this
              exact Bool.false_ne_true this
          rw [resultInsert, hins]
          simp only [Bool.false_eq_true, if_false]
          refine ⟨⟨_, rfl⟩, ?_, ?_, ?_⟩
          · intro z hz
            rcases List.mem_append.mp hz with hz | hz
            · exact hinv.members z hz
            · rw [List.mem_singleton] at hz
              subst hz
              exact hmax
          · intro S h1 h2 h3
            exact ⟨_, List.mem_append_right _ (List.mem_singleton.mpr rfl),
              hS2 S h1 h2 h3⟩
          · intro e he
            rw [List.mem_singleton] at he
            subst he
            exact ⟨hinv.members, hfreqH2⟩
      | false =>
        rw [mafiaGo_succ_rec hsub hleaf]
        have hwf := hinv.wf
        have hn2 : (node.head ++ pepItems tx msc node.head node.tail
            node.support_count).Nodup := by
          rw [List.nodup_append]
          refine ⟨hwf.1, (pepItems_sublist tx msc node.head node.tail
            node.support_count).nodup hwf.2.1, ?_⟩
          intro x hx hxp
          exact hwf.2.2 x
            ((pepItems_sublist tx msc node.head node.tail
              node.support_count).mem hxp) hx
        obtain ⟨hext, hmem, hcov, hfirst, hev⟩ :=
          runChildren_good tx msc fuel ih
            (node.head ++ pepItems tx msc node.head node.tail node.support_count)
            node.head.toFinset (node.head.toFinset ∪ node.tail.toFinset) depth
            hheadH2 hn2
            (sortedTail tx msc node.head node.tail node.support_count) M
            (by
              have h1 := sortedTail_length_le tx msc node.head node.tail
                node.support_count
              omega)
            (sortedTail_fst_nodup hwf.2.1)
            (by
              intro p hp
              rcases mem_sortedTail.mp hp with ⟨hcp, hne⟩
              rcases mem_childPairs.mp hcp with ⟨htail, hcount, _⟩
              rw [List.mem_append]
              rintro (hxh | hxp)
              · exact hwf.2.2 p.1 htail hxh
              · rcases mem_pepItems.mp hxp with ⟨_, hsc, _⟩
                rw [← hcount] at hsc
                exact hne hsc)
            (by
              intro p hp
              rcases mem_sortedTail.mp hp with ⟨hcp, _⟩
              rcases mem_childPairs.mp hcp with ⟨_, hcount, hfr⟩
              constructor
              · rw [← toFinset_append_single, ← countSupport_eq_sup,
                  countSupport_head2_child hinv.supportEq]
                exact hcount.symm
              · exact hfr)
            hinv.members
            hinv.outer
            (by
              intro S h1 h2 h3 h4
              exact absurd (hsplit S h1 (hheadH2.trans h2) h3) h4)
        refine ⟨hext, hmem, ?_, hev⟩
        intro S h1 h2 h3
        have hfreqS' : freq tx msc (S ∪ (pepItems tx msc node.head node.tail
            node.support_count).toFinset) :=
          (freq_union_pep hinv.supportEq S h2).mpr h1
        have hS'head : (node.head ++ pepItems tx msc node.head node.tail
            node.support_count).toFinset ⊆
            S ∪ (pepItems tx msc node.head node.tail
              node.support_count).toFinset := by
          rw [List.toFinset_append]
          exact Finset.union_subset_union h2 (subset_refl _)
        have hS'scope : S ∪ (pepItems tx msc node.head node.tail
            node.support_count).toFinset ⊆
            node.head.toFinset ∪ node.tail.toFinset :=
          Finset.union_subset h3 (hpepsub.trans Finset.subset_union_right)
        by_cases hS' : S ∪ (pepItems tx msc node.head node.tail
            node.support_count).toFinset ⊆
            (node.head ++ pepItems tx msc node.head node.tail
              node.support_count).toFinset
        · -- the whole itemset folds into the head: use the first child
          have hne : sortedTail tx msc node.head node.tail node.support_count
              ≠ [] := by
            intro hnil
            rw [hnil] at hleaf
            simp at hleaf
          rcases List.exists_cons_of_ne_nil hne with ⟨p, ps, hps⟩
          have hp0 : p ∈ (sortedTail tx msc node.head node.tail
              node.support_count).head? := by
            rw [Option.mem_def, hps]
            rfl
          rcases hfirst p hp0 with ⟨z, hz, hzsub⟩
          refine ⟨z, hz, ?_⟩
          exact (Finset.subset_union_left.trans hS').trans
            (Finset.subset_union_left.trans hzsub)
        · rcases hcov (S ∪ (pepItems tx msc node.head node.tail
              node.support_count).toFinset) hfreqS' hS'head hS'scope hS' with
            ⟨z, hz, hzsub⟩
          exact ⟨z, hz, Finset.subset_union_left.trans hzsub⟩

/-! ### Top-level facts about the optimized run -/

lemma itemsList_toFinset (tx : DB) : (itemsList tx).toFinset = allItems tx := by
  ext x
  rw [List.mem_toFinset]
  exact mem_itemsList

/-- When no itemset can be frequent because the threshold exceeds the number
of transactions, the run degenerates: the root becomes a leaf with empty
folded head and the empty itemset is appended. -/
lemma mafiaRun_degenerate {tx : DB} {msc : ℤ} (h : (tx.length : ℤ) < msc) :
    mafiaRun tx msc = ⟨[∅], [([], ∅)], [(0, ⟨[], itemsList tx, tx.length⟩)]⟩ := by
  have hcp : childPairs tx msc [] (itemsList tx) = [] := by
    unfold childPairs
    rw [List.filter_eq_nil_iff]
    intro p hp
    rcases List.mem_map.mp hp with ⟨a, _, rfl⟩
    simp only [decide_eq_true_eq, not_le]
    calc ((countSupport tx ([] ++ [a]) : ℕ) : ℤ) ≤ (tx.length : ℤ) := by
          exact_mod_cast List.length_filter_le _ tx
      _ < msc := h
  have hpep : pepItems tx msc [] (itemsList tx) tx.length = [] := by
    unfold pepItems
    rw [hcp]
    rfl
  have hsorted : sortedTail tx msc [] (itemsList tx) tx.length = [] := by
    unfold sortedTail
    rw [hcp]
    rfl
  show (⟨_, _, _⟩ : RunResult) = _
  rw [@mafiaGo_succ_leaf tx msc ((itemsList tx).length)
    ⟨[], itemsList tx, tx.length⟩ [] 0 rfl
    (by show (sortedTail tx msc [] (itemsList tx) tx.length).isEmpty = true
        rw [hsorted]
        rfl)]
  show (⟨resultInsert [] (([] : List ℕ) ++ pepItems tx msc [] (itemsList tx)
      tx.length).toFinset, _, _⟩ : RunResult) = _
  rw [hpep]
  rfl

lemma mafiaRun_good {tx : DB} {msc : ℤ} (hpos : 0 < msc)
    (hle : msc ≤ (tx.length : ℤ)) :
    GoodRun tx msc ⟨[], itemsList tx, tx.length⟩ []
      (mafiaGo tx msc ((itemsList tx).length + 1)
        ⟨[], itemsList tx, tx.length⟩ [] 0) := by
  apply mafiaGo_good
  · simp
  · refine ⟨⟨List.nodup_nil, itemsList_nodup tx, by simp⟩,
      countSupport_nil tx, hle, ?_, by simp⟩
    intro S h1 h2 h3
    exfalso
    apply h3
    intro x hx
    have hmem := freq_subset_allItems hpos h1 hx
    show x ∈ ([] : List ℕ).toFinset ∪ (itemsList tx).toFinset
    rw [itemsList_toFinset]
    simp [hmem]

lemma mafiaAlgorithm_eq_go_mfis (tx : DB) (msc : ℤ) :
    mafiaAlgorithm tx msc = (mafiaGo tx msc ((itemsList tx).length + 1)
      ⟨[], itemsList tx, tx.length⟩ [] 0).mfis := rfl

lemma mafiaAlgorithm_members {tx : DB} {msc : ℤ} (hpos : 0 < msc)
    (hle : msc ≤ (tx.length : ℤ)) :
    ∀ z ∈ mafiaAlgorithm tx msc, maxFreq tx msc z := by
  rw [mafiaAlgorithm_eq_go_mfis]
  exact (mafiaRun_good hpos hle).members

lemma mafiaAlgorithm_covers {tx : DB} {msc : ℤ} (hpos : 0 < msc)
    (hle : msc ≤ (tx.length : ℤ)) :
    ∀ S : Itemset, freq tx msc S → covers (mafiaAlgorithm tx msc) S := by
  intro S hS
  rw [mafiaAlgorithm_eq_go_mfis]
  refine (mafiaRun_good hpos hle).cover S hS (by simp) ?_
  intro x hx
  have hmem := freq_subset_allItems hpos hS hx
  show x ∈ ([] : List ℕ).toFinset ∪ (itemsList tx).toFinset
  rw [itemsList_toFinset]
  simp [hmem]

lemma mafiaAlgorithm_mem_iff {tx : DB} {msc : ℤ} (hpos : 0 < msc)
    (hle : msc ≤ (tx.length : ℤ)) (S : Itemset) :
    S ∈ mafiaAlgorithm tx msc ↔ maxFreq tx msc S := by
  constructor
  · exact mafiaAlgorithm_members hpos hle S
  · intro hS
    rcases mafiaAlgorithm_covers hpos hle S hS.1 with ⟨z, hz, hsub⟩
    have hzmax := mafiaAlgorithm_members hpos hle z hz
    rcases hsub.eq_or_ssubset with heq | hss
    · rw [heq]
      exact hz
    · exact absurd hzmax.1 (hS.2 z hss)

lemma mafiaAlgorithm_degenerate {tx : DB} {msc : ℤ}
    (h : (tx.length : ℤ) < msc) : mafiaAlgorithm tx msc = [∅] := by
  unfold mafiaAlgorithm
  rw [mafiaRun_degenerate h]

/-! ### The search invariant of the unoptimized traversal -/

/-- Semantic precondition of a call of the unoptimized `_mafiaAlgorithm`. -/
structure SNodeInv (tx : DB) (msc : ℤ) (node : SimpleNode) (M : List Itemset) :
    Prop where
  headNodup : node.head.Nodup
  tailNodup : node.tail.Nodup
  disj : ∀ x ∈ node.tail, x ∉ node.head
  headFreq : msc ≤ ((countSupport tx node.head : ℕ) : ℤ)
  outer : ∀ S : Itemset, freq tx msc S → node.head.toFinset ⊆ S →
    ¬ S ⊆ node.head.toFinset ∪ node.tail.toFinset → covers M S
  members : ∀ z ∈ M, maxFreq tx msc z

/-- Postcondition of a call of the unoptimized `_mafiaAlgorithm`. -/
structure SGoodRun (tx : DB) (msc : ℤ) (node : SimpleNode) (M : List Itemset)
    (r : SimpleRun) : Prop where
  ext : ∃ L, r.mfis = M ++ L
  members : ∀ z ∈ r.mfis, maxFreq tx msc z
  cover : ∀ S : Itemset, freq tx msc S → node.head.toFinset ⊆ S →
    S ⊆ node.head.toFinset ∪ node.tail.toFinset → covers r.mfis S
  events : ∀ e ∈ r.inserts, (∀ z ∈ e.1, maxFreq tx msc z) ∧ freq tx msc e.2

lemma runSimpleChildren_good (tx : DB) (msc : ℤ) (fuel : ℕ)
    (ihgo : ∀ (node : SimpleNode) (M : List Itemset),
      node.tail.length < fuel → SNodeInv tx msc node M →
      SGoodRun tx msc node M (simpleGo tx msc fuel node M))
    (head : List ℕ) (scope : Itemset) (hheadnodup : head.Nodup) :
    ∀ (items : List ℕ) (M : List Itemset),
      items.length ≤ fuel → items.Nodup → (∀ x ∈ items, x ∉ head) →
      (∀ z ∈ M, maxFreq tx msc z) →
      (∀ S : Itemset, freq tx msc S → head.toFinset ⊆ S → ¬ S ⊆ scope →
        covers M S) →
      (∀ S : Itemset, freq tx msc S → head.toFinset ⊆ S → S ⊆ scope →
        ¬ S ⊆ head.toFinset ∪ items.toFinset → covers M S) →
      (∃ L, (runSimpleChildren (simpleGo tx msc fuel) tx msc head items
        M).1.mfis = M ++ L) ∧
      (∀ z ∈ (runSimpleChildren (simpleGo tx msc fuel) tx msc head items
        M).1.mfis, maxFreq tx msc z) ∧
      (∀ S : Itemset, freq tx msc S → head.toFinset ⊆ S → S ⊆ scope →
        ¬ S ⊆ head.toFinset →
        covers (runSimpleChildren (simpleGo tx msc fuel) tx msc head items
          M).1.mfis S) ∧
      ((runSimpleChildren (simpleGo tx msc fuel) tx msc head items M).2 = false →
        ∃ z ∈ (runSimpleChildren (simpleGo tx msc fuel) tx msc head items
          M).1.mfis, head.toFinset ⊆ z) ∧
      ((runSimpleChildren (simpleGo tx msc fuel) tx msc head items M).2 = true →
        (runSimpleChildren (simpleGo tx msc fuel) tx msc head items M).1
          = ⟨M, []⟩ ∧
        ∀ x ∈ items, ¬ msc ≤ ((countSupport tx (head ++ [x]) : ℕ) : ℤ)) ∧
      (∀ e ∈ (runSimpleChildren (simpleGo tx msc fuel) tx msc head items
        M).1.inserts, (∀ z ∈ e.1, maxFreq tx msc z) ∧ freq tx msc e.2) := by
  intro items
  induction items with
  | nil =>
    intro M _ _ _ hM _ hinv
    refine ⟨⟨[], by simp [runSimpleChildren]⟩, hM, ?_, ?_, ?_, ?_⟩
    · intro S h1 h2 h3 h4
      exact hinv S h1 h2 h3 (by simpa using h4)
    · intro hfalse
      exact absurd hfalse (by simp [runSimpleChildren])
    · intro _
      exact ⟨rfl, by simp⟩
    · intro e he
      simp [runSimpleChildren] at he
  | cons a rest ih =>
    intro M hfuel hnodup hnotin hM hout hinv
    have hanotin : a ∉ head := hnotin a (List.mem_cons_self _ _)
    have hrestnodup : rest.Nodup := hnodup.of_cons
    have hanotinrest : a ∉ rest := (List.nodup_cons.mp hnodup).1
    have hseteq : head.toFinset ∪ (insert a rest.toFinset)
        = (head.toFinset ∪ {a}) ∪ rest.toFinset := by
      ext x
      simp [or_comm, or_assoc, or_left_comm]
    by_cases ha : msc ≤ ((countSupport tx (head ++ [a]) : ℕ) : ℤ)
    · -- frequent child: recurse on it, then on the remaining items
      have hrceq : runSimpleChildren (simpleGo tx msc fuel) tx msc head
          (a :: rest) M
          = (⟨(runSimpleChildren (simpleGo tx msc fuel) tx msc head rest
                (simpleGo tx msc fuel ⟨head ++ [a], rest⟩ M).mfis).1.mfis,
              (simpleGo tx msc fuel ⟨head ++ [a], rest⟩ M).inserts ++
              (runSimpleChildren (simpleGo tx msc fuel) tx msc head rest
                (simpleGo tx msc fuel ⟨head ++ [a], rest⟩ M).mfis).1.inserts⟩,
             false) := by
        simp only [runSimpleChildren]
        rw [if_pos ha]
      have hinvchild : SNodeInv tx msc ⟨head ++ [a], rest⟩ M := by
        refine ⟨?_, hrestnodup, ?_, ha, ?_, hM⟩
        · rw [List.nodup_append]
          exact ⟨hheadnodup, by simp, by simpa using hanotin⟩
        · intro x hx
          simp only [List.mem_append, List.mem_singleton]
          rintro (hxh | rfl)
          · exact hnotin x (List.mem_cons_of_mem _ hx) hxh
          · exact hanotinrest hx
        · intro S h1 h2 h3
          have hheadS : head.toFinset ⊆ S := by
            refine subset_trans ?_ h2
            rw [toFinset_append_single]
            exact Finset.subset_union_left
          by_cases hS : S ⊆ scope
          · refine hinv S h1 hheadS hS ?_
            rw [List.toFinset_cons, hseteq]
            simpa [toFinset_append_single] using h3
          · exact hout S h1 hheadS hS
      have hfuelchild : (⟨head ++ [a], rest⟩ : SimpleNode).tail.length < fuel := by
        simp only [List.length_cons] at hfuel
        simpa using hfuel
      have g1 := ihgo ⟨head ++ [a], rest⟩ M hfuelchild hinvchild
      have hinvrest : ∀ S : Itemset, freq tx msc S → head.toFinset ⊆ S →
          S ⊆ scope → ¬ S ⊆ head.toFinset ∪ rest.toFinset →
          covers (simpleGo tx msc fuel ⟨head ++ [a], rest⟩ M).mfis S := by
        intro S h1 h2 h3 h4
        by_cases hPS : S ⊆ head.toFinset ∪ (a :: rest).toFinset
        · have haS : a ∈ S := by
            by_contra haS
            refine h4 fun x hx => ?_
            have := hPS hx
            rw [List.toFinset_cons] at this
            rcases Finset.mem_union.mp this with hxh | hxt
            · exact Finset.mem_union_left _ hxh
            · rcases Finset.mem_insert.mp hxt with rfl | hxt
              · exact absurd hx haS
              · exact Finset.mem_union_right _ hxt
          refine covers_ext ⟨[], by simp⟩ (g1.cover S h1 ?_ ?_)
          · rw [toFinset_append_single]
            exact Finset.union_subset h2 (by simp [haS])
          · show S ⊆ (head ++ [a]).toFinset ∪ rest.toFinset
            rw [toFinset_append_single, ← hseteq]
            intro x hx
            have := hPS hx
            rw [List.toFinset_cons] at this
            exact this
        · refine covers_ext g1.ext (hinv S h1 h2 h3 ?_)
          rw [List.toFinset_cons]
          rw [List.toFinset_cons] at hPS
          exact hPS
      obtain ⟨hext2, hmem2, hcov2, hff2, hft2, hev2⟩ := ih
        (simpleGo tx msc fuel ⟨head ++ [a], rest⟩ M).mfis
        (by simp only [List.length_cons] at hfuel; omega)
        hrestnodup
        (fun x hx => hnotin x (List.mem_cons_of_mem _ hx))
        g1.members
        (fun S h1 h2 h3 => covers_ext g1.ext (hout S h1 h2 h3))
        hinvrest
      rw [hrceq]
      refine ⟨?_, hmem2, hcov2, ?_, ?_, ?_⟩
      · rcases g1.ext with ⟨L1, hL1⟩
        rcases hext2 with ⟨L2, hL2⟩
        exact ⟨L1 ++ L2, by rw [hL2, hL1, List.append_assoc]⟩
      · intro _
        have hchildcov : covers (simpleGo tx msc fuel ⟨head ++ [a], rest⟩
            M).mfis (head ++ [a]).toFinset := by
          refine g1.cover (head ++ [a]).toFinset ?_ (subset_refl _)
            Finset.subset_union_left
          show freq tx msc (head ++ [a]).toFinset
          unfold freq
          rw [← countSupport_eq_sup]
          exact ha
        rcases covers_ext hext2 hchildcov with ⟨z, hz, hsub⟩
        refine ⟨z, hz, ?_⟩
        refine subset_trans ?_ hsub
        rw [toFinset_append_single]
        exact Finset.subset_union_left
      · intro hflag
        exact absurd hflag (by simp)
      · intro e he
        rcases List.mem_append.mp he with he | he
        · exact g1.events e he
        · exact hev2 e he
    · -- infrequent child: it is skipped
      have hrceq : runSimpleChildren (simpleGo tx msc fuel) tx msc head
          (a :: rest) M
          = runSimpleChildren (simpleGo tx msc fuel) tx msc head rest M := by
        simp only [runSimpleChildren]
        rw [if_neg ha]
      have hinvrest : ∀ S : Itemset, freq tx msc S → head.toFinset ⊆ S →
          S ⊆ scope → ¬ S ⊆ head.toFinset ∪ rest.toFinset → covers M S := by
        intro S h1 h2 h3 h4
        by_cases hPS : S ⊆ head.toFinset ∪ (a :: rest).toFinset
        · have haS : a ∈ S := by
            by_contra haS
            refine h4 fun x hx => ?_
            have := hPS hx
            rw [List.toFinset_cons] at this
            rcases Finset.mem_union.mp this with hxh | hxt
            · exact Finset.mem_union_left _ hxh
            · rcases Finset.mem_insert.mp hxt with rfl | hxt
              · exact absurd hx haS
              · exact Finset.mem_union_right _ hxt
          exfalso
          apply ha
          have hsubS : head.toFinset ∪ {a} ⊆ S :=
            Finset.union_subset h2 (by simp [haS])
          rw [countSupport_eq_sup, toFinset_append_single]
          calc msc ≤ (sup tx S : ℤ) := h1
            _ ≤ _ := by exact_mod_cast sup_anti tx hsubS
        · refine hinv S h1 h2 h3 ?_
          rw [List.toFinset_cons]
          rw [List.toFinset_cons] at hPS
          exact hPS
      obtain ⟨hext2, hmem2, hcov2, hff2, hft2, hev2⟩ := ih M
        (by simp only [List.length_cons] at hfuel; omega)
        hrestnodup
        (fun x hx => hnotin x (List.mem_cons_of_mem _ hx))
        hM hout hinvrest
      rw [hrceq]
      refine ⟨hext2, hmem2, hcov2, hff2, ?_, hev2⟩
      intro hflag
      rcases hft2 hflag with ⟨hres, hall⟩
      refine ⟨hres, ?_⟩
      intro x hx
      rcases List.mem_cons.mp hx with rfl | hx
      · exact ha
      · exact hall x hx

lemma simpleGo_succ (tx : DB) (msc : ℤ) (fuel : ℕ) (node : SimpleNode)
    (M : List Itemset) :
    simpleGo tx msc (fuel + 1) node M
      = (if (runSimpleChildren (simpleGo tx msc fuel) tx msc node.head
            node.tail M).2 then
          ⟨resultInsert (runSimpleChildren (simpleGo tx msc fuel) tx msc
              node.head node.tail M).1.mfis node.head.toFinset,
            (runSimpleChildren (simpleGo tx msc fuel) tx msc node.head
              node.tail M).1.inserts
              ++ [((runSimpleChildren (simpleGo tx msc fuel) tx msc node.head
                node.tail M).1.mfis, node.head.toFinset)]⟩
        else (runSimpleChildren (simpleGo tx msc fuel) tx msc node.head
          node.tail M).1) := rfl

lemma simpleGo_good (tx : DB) (msc : ℤ) :
    ∀ (fuel : ℕ) (node : SimpleNode) (M : List Itemset),
      node.tail.length < fuel → SNodeInv tx msc node M →
      SGoodRun tx msc node M (simpleGo tx msc fuel node M) := by
  intro fuel
  induction fuel with
  | zero =>
    intro node M h
    exact absurd h (Nat.not_lt_zero _)
  | succ fuel ih =>
    intro node M hlen hinv
    have hfreqhead : freq tx msc node.head.toFinset := by
      unfold freq
      rw [← countSupport_eq_sup]
      exact hinv.headFreq
    obtain ⟨hext, hmem, hcov, hff, hft, hev⟩ :=
      runSimpleChildren_good tx msc fuel ih node.head
        (node.head.toFinset ∪ node.tail.toFinset) hinv.headNodup node.tail M
        (by omega) hinv.tailNodup hinv.disj hinv.members hinv.outer
        (fun S _ _ h3 h4 => absurd h3 h4)
    rw [simpleGo_succ]
    cases hflag : (runSimpleChildren (simpleGo tx msc fuel) tx msc node.head
        node.tail M).2 with
    | false =>
      simp only [Bool.false_eq_true, if_false]
      refine ⟨hext, hmem, ?_, hev⟩
      intro S h1 h2 h3
      by_cases hsh : S ⊆ node.head.toFinset
      · rcases hff hflag with ⟨z, hz, hsup⟩
        exact ⟨z, hz, hsh.trans hsup⟩
      · exact hcov S h1 h2 h3 hsh
    | true =>
      rcases hft hflag with ⟨hres, hall⟩
      simp only [if_true]
      have hmfis : (runSimpleChildren (simpleGo tx msc fuel) tx msc node.head
          node.tail M).1.mfis = M := by rw [hres]
      have hins0 : (runSimpleChildren (simpleGo tx msc fuel) tx msc node.head
          node.tail M).1.inserts = [] := by rw [hres]
      rw [hmfis, hins0]
      have hsdead : ∀ S : Itemset, freq tx msc S → node.head.toFinset ⊆ S →
          S ⊆ node.head.toFinset ∪ node.tail.toFinset →
          S ⊆ node.head.toFinset := by
        intro S h1 h2 h3 x hx
        rcases Finset.mem_union.mp (h3 hx) with hxh | hxt
        · exact hxh
        · exfalso
          apply hall x (List.mem_toFinset.mp hxt)
          rw [countSupport_eq_sup, toFinset_append_single]
          calc msc ≤ (sup tx S : ℤ) := h1
            _ ≤ _ := by
              exact_mod_cast sup_anti tx
                (Finset.union_subset h2 (by simp [hx]))
      cases hins : subsumed M node.head.toFinset with
      | true =>
        rcases subsumed_iff.mp hins with ⟨z, hz, hzsub⟩
        rw [resultInsert, hins]
        refine ⟨⟨[], by simp⟩, hinv.members, ?_, ?_⟩
        · intro S h1 h2 h3
          exact ⟨z, hz, (hsdead S h1 h2 h3).trans hzsub⟩
        · intro e he
          simp only [List.nil_append, List.mem_singleton] at he
          subst he
          exact ⟨hinv.members, hfreqhead⟩
      | false =>
        have hmax : maxFreq tx msc node.head.toFinset := by
          refine ⟨hfreqhead, ?_⟩
          intro Y hY hfreqY
          have hheadY : node.head.toFinset ⊆ Y := hY.subset
          by_cases hscope : Y ⊆ node.head.toFinset ∪ node.tail.toFinset
          · exact hY.not_subset (hsdead Y hfreqY hheadY hscope)
          · rcases hinv.outer Y hfreqY hheadY hscope with ⟨z, hz, hzY⟩
            have : subsumed M node.head.toFinset = true :=
              subsumed_iff.mpr ⟨z, hz, hY.subset.trans hzY⟩
            rw [hins] at this
            exact Bool.false_ne_true this
        rw [resultInsert, hins]
        simp only [Bool.false_eq_true, if_false]
        refine ⟨⟨_, rfl⟩, ?_, ?_, ?_⟩
        · intro z hz
          rcases List.mem_append.mp hz with hz | hz
          · exact hinv.members z hz
          · rw [List.mem_singleton] at hz
            subst hz
            exact hmax
        · intro S h1 h2 h3
          exact ⟨_, List.mem_append_right _ (List.mem_singleton.mpr rfl),
            hsdead S h1 h2 h3⟩
        · intro e he
          simp only [List.nil_append, List.mem_singleton] at he
          subst he
          exact ⟨hinv.members, hfreqhead⟩

/-! ### Top-level facts about the unoptimized run -/

lemma mafiaSimpleAlgorithm_eq_go_mfis (tx : DB) (msc : ℤ) :
    mafiaSimpleAlgorithm tx msc = (simpleGo tx msc ((itemsList tx).length + 1)
      ⟨[], itemsList tx⟩ []).mfis := rfl

lemma simpleRun_good {tx : DB} {msc : ℤ} (hpos : 0 < msc)
    (hle : msc ≤ (tx.length : ℤ)) :
    SGoodRun tx msc ⟨[], itemsList tx⟩ []
      (simpleGo tx msc ((itemsList tx).length + 1) ⟨[], itemsList tx⟩ []) := by
  apply simpleGo_good
  · simp
  · refine ⟨List.nodup_nil, itemsList_nodup tx, by simp, ?_, ?_, by simp⟩
    · rw [countSupport_nil]
      exact hle
    · intro S h1 h2 h3
      exfalso
      apply h3
      intro x hx
      have hmem := freq_subset_allItems hpos h1 hx
      show x ∈ ([] : List ℕ).toFinset ∪ (itemsList tx).toFinset
      rw [itemsList_toFinset]
      simp [hmem]

lemma mafiaSimpleAlgorithm_members {tx : DB} {msc : ℤ} (hpos : 0 < msc)
    (hle : msc ≤ (tx.length : ℤ)) :
    ∀ z ∈ mafiaSimpleAlgorithm tx msc, maxFreq tx msc z := by
  rw [mafiaSimpleAlgorithm_eq_go_mfis]
  exact (simpleRun_good hpos hle).members

lemma mafiaSimpleAlgorithm_covers {tx : DB} {msc : ℤ} (hpos : 0 < msc)
    (hle : msc ≤ (tx.length : ℤ)) :
    ∀ S : Itemset, freq tx msc S → covers (mafiaSimpleAlgorithm tx msc) S := by
  intro S hS
  rw [mafiaSimpleAlgorithm_eq_go_mfis]
  refine (simpleRun_good hpos hle).cover S hS (by simp) ?_
  intro x hx
  have hmem := freq_subset_allItems hpos hS hx
  show x ∈ ([] : List ℕ).toFinset ∪ (itemsList tx).toFinset
  rw [itemsList_toFinset]
  simp [hmem]

lemma mafiaSimpleAlgorithm_mem_iff {tx : DB} {msc : ℤ} (hpos : 0 < msc)
    (hle : msc ≤ (tx.length : ℤ)) (S : Itemset) :
    S ∈ mafiaSimpleAlgorithm tx msc ↔ maxFreq tx msc S := by
  constructor
  · exact mafiaSimpleAlgorithm_members hpos hle S
  · intro hS
    rcases mafiaSimpleAlgorithm_covers hpos hle S hS.1 with ⟨z, hz, hsub⟩
    have hzmax := mafiaSimpleAlgorithm_members hpos hle z hz
    rcases hsub.eq_or_ssubset with heq | hss
    · rw [heq]
      exact hz
    · exact absurd hzmax.1 (hS.2 z hss)

lemma runSimpleChildren_all_infrequent {tx : DB} {msc : ℤ}
    {go : SimpleNode → List Itemset → SimpleRun} {head : List ℕ} :
    ∀ (items : List ℕ) (M : List Itemset),
      (∀ x ∈ items, ¬ msc ≤ ((countSupport tx (head ++ [x]) : ℕ) : ℤ)) →
      runSimpleChildren go tx msc head items M = (⟨M, []⟩, true) := by
  intro items
  induction items with
  | nil =>
    intro M _
    rfl
  | cons a rest ih =>
    intro M hall
    simp only [runSimpleChildren]
    rw [if_neg (hall a (List.mem_cons_self _ _))]
    exact ih M (fun x hx => hall x (List.mem_cons_of_mem _ hx))

lemma simpleRun_degenerate {tx : DB} {msc : ℤ} (h : (tx.length : ℤ) < msc) :
    simpleRun tx msc = ⟨[∅], [([], ∅)]⟩ := by
  have hall : ∀ x ∈ itemsList tx,
      ¬ msc ≤ ((countSupport tx ([] ++ [x]) : ℕ) : ℤ) := by
    intro x _
    simp only [not_le]
    calc ((countSupport tx ([] ++ [x]) : ℕ) : ℤ) ≤ (tx.length : ℤ) := by
          exact_mod_cast List.length_filter_le _ tx
      _ < msc := h
  show simpleGo tx msc ((itemsList tx).length + 1) ⟨[], itemsList tx⟩ [] = _
  rw [simpleGo_succ]
  rw [runSimpleChildren_all_infrequent (itemsList tx) [] hall]
  rfl

lemma mafiaSimpleAlgorithm_degenerate {tx : DB} {msc : ℤ}
    (h : (tx.length : ℤ) < msc) : mafiaSimpleAlgorithm tx msc = [∅] := by
  unfold mafiaSimpleAlgorithm
  rw [simpleRun_degenerate h]

/-! ### Structural facts about the constructed nodes -/

lemma head2_nodup {tx : DB} {msc : ℤ} {node : MafiaNode} (hwf : NodeWF node) :
    (node.head ++ pepItems tx msc node.head node.tail node.support_count).Nodup := by
  rw [List.nodup_append]
  refine ⟨hwf.1, (pepItems_sublist tx msc node.head node.tail
    node.support_count).nodup hwf.2.1, ?_⟩
  intro x hx hxp
  exact hwf.2.2 x
    ((pepItems_sublist tx msc node.head node.tail node.support_count).mem hxp) hx

lemma sortedTail_fst_notin_head2 {tx : DB} {msc : ℤ} {node : MafiaNode}
    (hwf : NodeWF node) :
    ∀ p ∈ sortedTail tx msc node.head node.tail node.support_count,
      p.1 ∉ node.head ++ pepItems tx msc node.head node.tail
        node.support_count := by
  intro p hp
  rcases mem_sortedTail.mp hp with ⟨hcp, hne⟩
  rcases mem_childPairs.mp hcp with ⟨htail, hcount, _⟩
  rw [List.mem_append]
  rintro (hxh | hxp)
  · exact hwf.2.2 p.1 htail hxh
  · rcases mem_pepItems.mp hxp with ⟨_, hsc, _⟩
    rw [← hcount] at hsc
    exact hne hsc

lemma runChildren_nodes (go : MafiaNode → List Itemset → ℕ → RunResult)
    (head2 : List ℕ) (depth : ℕ)
    (hgo : ∀ (node : MafiaNode) (M : List Itemset) (d : ℕ), NodeWF node →
      ∀ dn ∈ (go node M d).nodes,
        NodeWF dn.2 ∧ dn.1 + dn.2.tail.length ≤ d + node.tail.length ∧
          d < dn.1) :
    ∀ (pairs : List (ℕ × ℕ)) (M : List Itemset),
      head2.Nodup → (pairs.map Prod.fst).Nodup → (∀ p ∈ pairs, p.1 ∉ head2) →
      ∀ dn ∈ (runChildren go head2 depth pairs M).nodes,
        NodeWF dn.2 ∧ dn.1 + dn.2.tail.length ≤ depth + pairs.length ∧
          depth < dn.1 := by
  intro pairs
  induction pairs with
  | nil =>
    intro M _ _ _ dn hdn
    simp [runChildren] at hdn
  | cons pr rest ih =>
    rcases pr with ⟨a, b⟩
    intro M hn2 hnodup hnotin dn hdn
    have hmap : ((a, b) :: rest).map Prod.fst = a :: rest.map Prod.fst := rfl
    rw [hmap] at hnodup
    have hchildwf : NodeWF ⟨head2 ++ [a], rest.map Prod.fst, b⟩ := by
      refine ⟨?_, hnodup.of_cons, ?_⟩
      · rw [List.nodup_append]
        exact ⟨hn2, by simp,
          by simpa using hnotin (a, b) (List.mem_cons_self _ _)⟩
      · intro x hx
        simp only [List.mem_append, List.mem_singleton]
        rintro (hxh | rfl)
        · rcases List.mem_map.mp hx with ⟨p, hp, rfl⟩
          exact hnotin p (List.mem_cons_of_mem _ hp) hxh
        · exact (List.nodup_cons.mp hnodup).1 hx
    have hrc : (runChildren go head2 depth ((a, b) :: rest) M).nodes
        = (depth + 1, ⟨head2 ++ [a], rest.map Prod.fst, b⟩) ::
          ((go ⟨head2 ++ [a], rest.map Prod.fst, b⟩ M (depth + 1)).nodes ++
           (runChildren go head2 depth rest
             (go ⟨head2 ++ [a], rest.map Prod.fst, b⟩ M
               (depth + 1)).mfis).nodes) := rfl
    rw [hrc] at hdn
    have hmaplen : (rest.map Prod.fst).length = rest.length := List.length_map ..
    rcases List.mem_cons.mp hdn with rfl | hdn
    · refine ⟨hchildwf, ?_, by omega⟩
      show depth + 1 + (rest.map Prod.fst).length ≤ depth + (rest.length + 1)
      omega
    · rcases List.mem_append.mp hdn with hdn | hdn
      · obtain ⟨hwf, hle, hlt⟩ := hgo _ _ _ hchildwf dn hdn
        have hct : (⟨head2 ++ [a], rest.map Prod.fst, b⟩ : MafiaNode).tail.length
            = rest.length := hmaplen
        refine ⟨hwf, ?_, by omega⟩
        simp only [List.length_cons]
        omega
      · obtain ⟨hwf, hle, hlt⟩ := ih _ hn2 hnodup.of_cons
          (fun p hp => hnotin p (List.mem_cons_of_mem _ hp)) dn hdn
        exact ⟨hwf, by simp only [List.length_cons]; omega, hlt⟩

lemma mafiaGo_nodes (tx : DB) (msc : ℤ) :
    ∀ (fuel : ℕ) (node : MafiaNode) (M : List Itemset) (depth : ℕ),
      NodeWF node →
      ∀ dn ∈ (mafiaGo tx msc fuel node M depth).nodes,
        NodeWF dn.2 ∧ dn.1 + dn.2.tail.length ≤ depth + node.tail.length ∧
          depth < dn.1 := by
  intro fuel
  induction fuel with
  | zero =>
    intro node M depth _ dn hdn
    simp [mafiaGo] at hdn
  | succ fuel ih =>
    intro node M depth hwf dn hdn
    cases hsub : subsumed M (node.head ++ node.tail).toFinset with
    | true =>
      rw [mafiaGo_succ_prune hsub] at hdn
      simp at hdn
    | false =>
      cases hleaf : (sortedTail tx msc node.head node.tail
          node.support_count).isEmpty with
      | true =>
        rw [mafiaGo_succ_leaf hsub hleaf] at hdn
        simp at hdn
      | false =>
        rw [mafiaGo_succ_rec hsub hleaf] at hdn
        obtain ⟨hwf', hle, hlt⟩ := runChildren_nodes (mafiaGo tx msc fuel) _
          depth (fun n M' d hn => ih n M' d hn)
          (sortedTail tx msc node.head node.tail node.support_count) M
          (head2_nodup hwf) (sortedTail_fst_nodup hwf.2.1)
          (sortedTail_fst_notin_head2 hwf) dn hdn
        refine ⟨hwf', ?_, hlt⟩
        have := sortedTail_length_le tx msc node.head node.tail
          node.support_count
        omega

lemma mafiaRun_nodes (tx : DB) (msc : ℤ) :
    ∀ dn ∈ (mafiaRun tx msc).nodes,
      NodeWF dn.2 ∧ dn.1 + dn.2.tail.length ≤ (itemsList tx).length := by
  intro dn hdn
  have hroot : NodeWF ⟨[], itemsList tx, tx.length⟩ :=
    ⟨List.nodup_nil, itemsList_nodup tx, by simp⟩
  rcases List.mem_cons.mp hdn with rfl | hdn
  · exact ⟨hroot, by simp⟩
  · obtain ⟨hwf, hle, _⟩ := mafiaGo_nodes tx msc _ _ _ 0 hroot dn hdn
    exact ⟨hwf, by simpa using hle⟩

/-! ### The insertion events realise the specified insertion -/

lemma event_insert_eq {tx : DB} {msc : ℤ} {e : List Itemset × Itemset}
    (h : (∀ z ∈ e.1, maxFreq tx msc z) ∧ freq tx msc e.2) :
    resultInsert e.1 e.2 = resultInsertSpec e.1 e.2 := by
  unfold resultInsert resultInsertSpec
  cases hs : subsumed e.1 e.2 with
  | true => rfl
  | false =>
    simp only [Bool.false_eq_true, if_false]
    congr 1
    refine (List.filter_eq_self.mpr ?_).symm
    intro z hz
    rw [Bool.not_eq_true', decide_eq_false_iff_not]
    intro hzc
    exact (h.1 z hz).2 e.2 hzc h.2

lemma mafiaRun_events {tx : DB} {msc : ℤ} (hpos : 0 < msc) :
    ∀ e ∈ (mafiaRun tx msc).inserts,
      resultInsert e.1 e.2 = resultInsertSpec e.1 e.2 := by
  intro e he
  by_cases hle : msc ≤ (tx.length : ℤ)
  · exact event_insert_eq ((mafiaRun_good hpos hle).events e he)
  · push_neg at hle
    rw [mafiaRun_degenerate hle] at he
    simp only [List.mem_singleton] at he
    subst he
    rfl

lemma simpleRun_events {tx : DB} {msc : ℤ} (hpos : 0 < msc) :
    ∀ e ∈ (simpleRun tx msc).inserts,
      resultInsert e.1 e.2 = resultInsertSpec e.1 e.2 := by
  intro e he
  by_cases hle : msc ≤ (tx.length : ℤ)
  · exact event_insert_eq ((simpleRun_good hpos hle).events e he)
  · push_neg at hle
    rw [simpleRun_degenerate hle] at he
    simp only [List.mem_singleton] at he
    subst he
    rfl

/-! ### Claim theorems -/

/-- C1: for every transaction database and positive `min_support_count`,
every itemset with support count at least `min_support_count` is a subset of
some itemset in the list returned by `mafiaAlgorithm` — completeness survives
HUT pruning, the infrequent-child drop and PEP folding. -/
theorem mafia_completeness (tx : DB) (msc : ℤ) (hpos : 0 < msc)
    (S : Itemset) (hfreq : msc ≤ (sup tx S : ℤ)) :
    ∃ z ∈ mafiaAlgorithm tx msc, S ⊆ z := by
  by_cases hle : msc ≤ (tx.length : ℤ)
  · exact mafiaAlgorithm_covers hpos hle S hfreq
  · push_neg at hle
    exfalso
    have hl : ((sup tx S : ℕ) : ℤ) ≤ (tx.length : ℤ) := by
      exact_mod_cast sup_le_length tx S
    omega

theorem mafia_completeness_witness :
    (0 : ℤ) < 3 ∧ 3 ≤ (sup [{1,2,3},{1,2},{1,3},{2,3},{1,2,3}] {1,2} : ℤ) ∧
      ∃ z ∈ mafiaAlgorithm [{1,2,3},{1,2},{1,3},{2,3},{1,2,3}] 3, {1,2} ⊆ z :=
  ⟨by decide, by decide,
    mafia_completeness [{1,2,3},{1,2},{1,3},{2,3},{1,2,3}] 3 (by decide)
      {1,2} (by decide)⟩

/-- C2: for every transaction database and positive `min_support_count`, the
list returned by `mafiaAlgorithm` is an antichain under the subset relation:
for distinct members neither contains the other. -/
theorem mafia_antichain (tx : DB) (msc : ℤ) (hpos : 0 < msc) :
    ∀ A ∈ mafiaAlgorithm tx msc, ∀ B ∈ mafiaAlgorithm tx msc, A ≠ B →
      ¬ A ⊆ B ∧ ¬ B ⊆ A := by
  have key : ∀ X ∈ mafiaAlgorithm tx msc, ∀ Y ∈ mafiaAlgorithm tx msc,
      X ≠ Y → ¬ X ⊆ Y := by
    intro X hX Y hY hne hsub
    by_cases hle : msc ≤ (tx.length : ℤ)
    · have hXm := mafiaAlgorithm_members hpos hle X hX
      have hYm := mafiaAlgorithm_members hpos hle Y hY
      exact hXm.2 Y (Finset.ssubset_iff_subset_ne.mpr ⟨hsub, hne⟩) hYm.1
    · push_neg at hle
      rw [mafiaAlgorithm_degenerate hle] at hX hY
      rw [List.mem_singleton] at hX hY
      rw [hX, hY] at hne
      exact hne rfl
  intro A hA B hB hne
  exact ⟨key A hA B hB hne, key B hB A hA hne.symm⟩

theorem mafia_antichain_witness :
    (0 : ℤ) < 3 ∧
      (∀ A ∈ mafiaAlgorithm [{1,2,3},{1,2},{1,3},{2,3},{1,2,3}] 3,
        ∀ B ∈ mafiaAlgorithm [{1,2,3},{1,2},{1,3},{2,3},{1,2,3}] 3, A ≠ B →
          ¬ A ⊆ B ∧ ¬ B ⊆ A) :=
  ⟨by decide, mafia_antichain [{1,2,3},{1,2},{1,3},{2,3},{1,2,3}] 3 (by decide)⟩

/-- C3: the frequency property fails on the code: on the empty database with
`min_support_count = 1` the returned list is `[∅]`, and the support count of
the empty itemset there is `0 < 1` — the code returns an itemset whose
support is below the threshold. -/
theorem mafia_frequency_violation :
    mafiaAlgorithm [] 1 = [∅] ∧ ((sup [] ∅ : ℕ) : ℤ) < 1 := by decide

/-- C4: on the transactions `[{1,2,3},{1,2},{1,3},{2,3},{1,2,3}]` with
`min_support_count = 3` the optimized miner returns exactly the set of
itemsets containing `{1,2}`, `{1,3}` and `{2,3}`. -/
theorem mafia_concrete_run :
    (mafiaAlgorithm [{1,2,3},{1,2},{1,3},{2,3},{1,2,3}] 3).toFinset
      = ({{1,2},{1,3},{2,3}} : Finset Itemset) := by decide

/-- C5 counterexample: calling the entry point with
`min_support_count = 0` does not fail and does produce a result collection:
on `[{1}]` it returns `[{1}]`, which is not the empty list. -/
theorem mafia_no_validation_counterexample :
    mafiaAlgorithm [{1}] 0 = [{1}] ∧ mafiaAlgorithm [{1}] 0 ≠ [] := by decide

/-- C5 amended: `mafiaAlgorithm` performs no validation of
`min_support_count`: for every `min_support_count ≤ 0` it runs normally and
returns a result collection; on the database `[{1}]` that collection is
`[{1}]`. -/
theorem mafia_no_validation (msc : ℤ) (h : msc ≤ 0) :
    mafiaAlgorithm [{1}] msc = [{1}] := by
  have hitems : itemsList [{1}] = [1] := by decide
  have hcs : countSupport [{1}] ([] ++ [1]) = 1 := by decide
  have hfr : decide (msc ≤ ((1 : ℕ) : ℤ)) = true :=
    decide_eq_true (le_trans h (by decide))
  have hcp : childPairs [{1}] msc [] [1] = [(1, 1)] := by
    unfold childPairs
    rw [List.map_singleton, hcs, List.filter_singleton, hfr]
    rfl
  have hpep : pepItems [{1}] msc [] [1] 1 = [1] := by
    unfold pepItems
    rw [hcp]
    rfl
  have hsorted : sortedTail [{1}] msc [] [1] 1 = [] := by
    unfold sortedTail
    rw [hcp]
    rfl
  show (mafiaGo [{1}] msc ((itemsList [{1}]).length + 1)
    ⟨[], itemsList [{1}], ([{1}] : DB).length⟩ [] 0).mfis = [{1}]
  rw [hitems]
  show (mafiaGo [{1}] msc ([1].length + 1) (⟨[], [1], 1⟩ : MafiaNode) [] 0).mfis
    = [{1}]
  rw [@mafiaGo_succ_leaf [{1}] msc ([1].length) ⟨[], [1], 1⟩ [] 0 rfl
    (by show (sortedTail [{1}] msc [] [1] 1).isEmpty = true
        rw [hsorted]
        rfl)]
  show resultInsert [] (([] : List ℕ) ++ pepItems [{1}] msc [] [1] 1).toFinset
    = [{1}]
  rw [hpep]
  rfl

theorem mafia_no_validation_witness :
    (-7 : ℤ) ≤ 0 ∧ mafiaAlgorithm [{1}] (-7) = [{1}] :=
  ⟨by decide, mafia_no_validation (-7) (by decide)⟩

/-- C6: the degenerate runs do not return an empty collection: on the empty
database with `min_support_count = 1`, and on the five listed transactions
with `min_support_count = 10`, `mafiaAlgorithm` returns the one-element list
holding the empty itemset. -/
theorem mafia_degenerate_runs :
    mafiaAlgorithm [] 1 = [∅] ∧
      mafiaAlgorithm [{1,2,3},{1,2},{1,3},{2,3},{1,2,3}] 10 = [∅] ∧
      mafiaAlgorithm [] 1 ≠ [] := by decide

/-- C7: at every insertion attempt recorded during a run with positive
`min_support_count` (of either miner), the code's step — reject when an
existing member is a superset, otherwise append — coincides with the
specified step that additionally removes existing proper subsets of the
candidate: no such proper subset ever exists at insertion time. -/
theorem mafia_insert_semantics (tx : DB) (msc : ℤ) (hpos : 0 < msc) :
    (∀ e ∈ (mafiaRun tx msc).inserts,
      resultInsert e.1 e.2 = resultInsertSpec e.1 e.2) ∧
    (∀ e ∈ (simpleRun tx msc).inserts,
      resultInsert e.1 e.2 = resultInsertSpec e.1 e.2) :=
  ⟨mafiaRun_events hpos, simpleRun_events hpos⟩

theorem mafia_insert_semantics_witness :
    (0 : ℤ) < 3 ∧
      ((∀ e ∈ (mafiaRun [{1,2,3},{1,2},{1,3},{2,3},{1,2,3}] 3).inserts,
        resultInsert e.1 e.2 = resultInsertSpec e.1 e.2) ∧
      (∀ e ∈ (simpleRun [{1,2,3},{1,2},{1,3},{2,3},{1,2,3}] 3).inserts,
        resultInsert e.1 e.2 = resultInsertSpec e.1 e.2)) :=
  ⟨by decide,
    mafia_insert_semantics [{1,2,3},{1,2},{1,3},{2,3},{1,2,3}] 3 (by decide)⟩

/-- C8 counterexample: on `[{1,2},{1},{1},{2}]` with `min_support_count = 2`
the traversal constructs the node with head `(2)` and tail `[1]` (because the
tail is re-sorted by support, not by item order), so it is false that every
tail item exceeds every head item in the item order. -/
theorem mafia_node_order_counterexample :
    (1, MafiaNode.mk [2] [1] 2) ∈ (mafiaRun [{1,2},{1},{1},{2}] 2).nodes ∧
      ¬ (∀ dn ∈ (mafiaRun [{1,2},{1},{1},{2}] 2).nodes,
          ∀ x ∈ dn.2.tail, ∀ y ∈ dn.2.head, y < x) := by decide

/-- C8 amended: every search node constructed during the traversal has a
duplicate-free head, a duplicate-free tail, and disjoint head and tail
(`head ∩ tail = ∅`); the item-order conjuncts of the claim fail because the
tail is re-sorted by support. -/
theorem mafia_node_invariant (tx : DB) (msc : ℤ) :
    ∀ dn ∈ (mafiaRun tx msc).nodes,
      dn.2.head.Nodup ∧ dn.2.tail.Nodup ∧ ∀ x ∈ dn.2.tail, x ∉ dn.2.head :=
  fun dn hdn => (mafiaRun_nodes tx msc dn hdn).1

theorem mafia_node_invariant_witness :
    (1, MafiaNode.mk [2] [1] 2) ∈ (mafiaRun [{1,2},{1},{1},{2}] 2).nodes ∧
      ([2].Nodup ∧ [1].Nodup ∧ ∀ x ∈ [1], x ∉ [2]) :=
  ⟨by decide,
    mafia_node_invariant [{1,2},{1},{1},{2}] 2 (1, MafiaNode.mk [2] [1] 2)
      (by decide)⟩

/-- C9: the traversal (a total function in this embedding) has recursion
depth bounded by the size of the item universe: every node recorded at depth
`d` satisfies `d + |tail| ≤ |universe|`, because each child's tail is a
strict suffix of the parent's re-sorted tail. -/
theorem mafia_depth_bound (tx : DB) (msc : ℤ) :
    ∀ dn ∈ (mafiaRun tx msc).nodes,
      dn.1 ≤ (itemsList tx).length ∧
        dn.1 + dn.2.tail.length ≤ (itemsList tx).length :=
  fun dn hdn => ⟨le_trans (Nat.le_add_right _ _)
    (mafiaRun_nodes tx msc dn hdn).2, (mafiaRun_nodes tx msc dn hdn).2⟩

theorem mafia_depth_bound_witness :
    (1, MafiaNode.mk [2] [1] 2) ∈ (mafiaRun [{1,2},{1},{1},{2}] 2).nodes ∧
      (1 ≤ (itemsList [{1,2},{1},{1},{2}]).length ∧
        1 + [1].length ≤ (itemsList [{1,2},{1},{1},{2}]).length) :=
  ⟨by decide,
    mafia_depth_bound [{1,2},{1},{1},{2}] 2 (1, MafiaNode.mk [2] [1] 2)
      (by decide)⟩

/-- C10: for every transaction database and positive `min_support_count`,
the optimized miner (`mafia.py`) and the unoptimized miner
(`mafia_simple.py`) return the same set of itemsets: membership in the two
returned lists coincides. -/
theorem mafia_equiv_simple (tx : DB) (msc : ℤ) (hpos : 0 < msc)
    (S : Itemset) :
    S ∈ mafiaAlgorithm tx msc ↔ S ∈ mafiaSimpleAlgorithm tx msc := by
  by_cases hle : msc ≤ (tx.length : ℤ)
  · rw [mafiaAlgorithm_mem_iff hpos hle S,
      mafiaSimpleAlgorithm_mem_iff hpos hle S]
  · push_neg at hle
    rw [mafiaAlgorithm_degenerate hle, mafiaSimpleAlgorithm_degenerate hle]

theorem mafia_equiv_simple_witness :
    (0 : ℤ) < 3 ∧
      ({1,2} ∈ mafiaAlgorithm [{1,2,3},{1,2},{1,3},{2,3},{1,2,3}] 3 ↔
        {1,2} ∈ mafiaSimpleAlgorithm [{1,2,3},{1,2},{1,3},{2,3},{1,2,3}] 3) :=
  ⟨by decide,
    mafia_equiv_simple [{1,2,3},{1,2},{1,3},{2,3},{1,2,3}] 3 (by decide) {1,2}⟩

/-- Spec scenario 3: transactions `[{1},{1},{2}]` with threshold 2 give the
single maximal frequent itemset containing just item 1. -/
theorem mafia_scenario_three : mafiaAlgorithm [{1},{1},{2}] 2 = [{1}] := by decide

end Mafia
